import Mathlib

/-!
# Verification of the 3-SAT Benchmark solving engines

This file gives a shallow embedding of the SAT solving engines of
`Tester.py` (brute-force enumeration, Davis-Putnam resolution, DPLL)
and proves or refutes the frozen specification claims about them.

Conventions of the embedding:
* A literal is a signed integer (`Int`), a clause a `List Int`, a formula a
  `List (List Int)`, exactly as in the Python data model.
* Python functions that can raise are modelled as `Option`-valued
  functions returning `none` on the raising executions.
* Wall-clock timeouts are not modelled; the Davis-Putnam step budget
  (`MAX_DP_STEPS`) is modelled exactly, as a fuel argument counting the
  remaining allowed calls.
* The (external) parser never produces the literal `0` (a `0` token
  terminates a clause), so formulas reaching the solvers have nonzero
  literals; theorems that need this carry it as an explicit hypothesis.
-/

abbrev Clause := List Int
abbrev Formula := List Clause

/-- `MAX_DP_STEPS = 100_000` from the configuration block of `Tester.py`. -/
def MAX_DP_STEPS : Nat := 100000

/-- `BF_THRESHOLD = 20` from the configuration block of `Tester.py`. -/
def BF_THRESHOLD : Nat := 20

/-! ## Semantics

Truth-table semantics of CNF used to state correctness: an assignment maps
variable identifiers (the magnitudes of literals) to Booleans; a positive
literal `l` is satisfied when its variable is true, a negative one when its
variable is false. -/

/-- A literal `l` is satisfied by assignment `a` iff the sign of `l` agrees
with the value `a` gives to its variable. -/
def litSat (a : Nat → Bool) (l : Int) : Bool :=
  (decide (0 < l)) == a l.natAbs

/-- A clause is satisfied iff some literal in it is satisfied. -/
def clauseSat (a : Nat → Bool) (c : Clause) : Bool :=
  c.any (litSat a)

/-- A formula is satisfied iff all its clauses are. -/
def formulaSat (a : Nat → Bool) (f : Formula) : Bool :=
  f.all (clauseSat a)

/-- Satisfiability of a formula. -/
def Satisfiable (f : Formula) : Prop :=
  ∃ a : Nat → Bool, formulaSat a f = true

/-- Well-formedness: no literal is `0` (guaranteed by the CNF parser, which
treats `0` as the clause terminator). -/
def noZero (f : Formula) : Prop :=
  ∀ c ∈ f, ∀ l ∈ c, l ≠ 0

/-- No clause contains a pair of complementary literals. -/
def noTaut (f : Formula) : Prop :=
  ∀ c ∈ f, ∀ l ∈ c, -l ∉ c

/-! ## The `simplify` primitive

Embedding of `simplify(frm, lit)` from `dpll_solver` (Tester.py lines
114-122): for each clause in order, drop it if it contains `lit`; otherwise
if it contains `-lit`, keep it with all occurrences of `-lit` removed;
otherwise keep it unchanged. -/

/-- `simplify(frm, lit)` of `Tester.py`, translated clause by clause from
the Python loop. -/
def simplify : Formula → Int → Formula
  | [], _ => []
  | c :: f, lit =>
    if lit ∈ c then simplify f lit
    else if -lit ∈ c then (c.filter (fun l => l ≠ -lit)) :: simplify f lit
    else c :: simplify f lit

/-- Characterisation of membership in `simplify f lit`: every output clause
comes from an input clause not containing `lit`, either filtered (when it
contained `-lit`) or unchanged. -/
theorem mem_simplify {f : Formula} {lit : Int} {c' : Clause}
    (h : c' ∈ simplify f lit) :
    ∃ c ∈ f, lit ∉ c ∧
      ((-lit ∈ c ∧ c' = c.filter (fun l => l ≠ -lit)) ∨ (-lit ∉ c ∧ c' = c)) := by
  induction f with
  | nil => simp [simplify] at h
  | cons c f ih =>
    by_cases h1 : lit ∈ c
    · simp only [simplify, if_pos h1] at h
      obtain ⟨d, hd, hrest⟩ := ih h
      exact ⟨d, List.mem_cons_of_mem _ hd, hrest⟩
    · by_cases h2 : -lit ∈ c
      · simp only [simplify, if_neg h1, if_pos h2, List.mem_cons] at h
        rcases h with h | h
        · exact ⟨c, List.mem_cons_self _ _, h1, Or.inl ⟨h2, h⟩⟩
        · obtain ⟨d, hd, hrest⟩ := ih h
          exact ⟨d, List.mem_cons_of_mem _ hd, hrest⟩
      · simp only [simplify, if_neg h1, if_neg h2, List.mem_cons] at h
        rcases h with h | h
        · exact ⟨c, List.mem_cons_self _ _, h1, Or.inr ⟨h2, h⟩⟩
        · obtain ⟨d, hd, hrest⟩ := ih h
          exact ⟨d, List.mem_cons_of_mem _ hd, hrest⟩

/-- Literal occurrences only shrink under `simplify`, and neither `lit` nor
`-lit` survives. -/
theorem mem_join_simplify {f : Formula} {lit m : Int}
    (h : m ∈ (simplify f lit).flatten) :
    m ∈ f.flatten ∧ m ≠ lit ∧ m ≠ -lit := by
  rw [List.mem_flatten] at h
  obtain ⟨c', hc', hm⟩ := h
  obtain ⟨c, hc, hlit, hcase⟩ := mem_simplify hc'
  rcases hcase with ⟨hneg, rfl⟩ | ⟨hneg, rfl⟩
  · rw [List.mem_filter] at hm
    obtain ⟨hmc, hmne⟩ := hm
    refine ⟨List.mem_flatten.2 ⟨c, hc, hmc⟩, ?_, ?_⟩
    · rintro rfl; exact hlit hmc
    · simpa using hmne
  · refine ⟨List.mem_flatten.2 ⟨_, hc, hm⟩, ?_, ?_⟩
    · rintro rfl; exact hlit hm
    · rintro rfl; exact hneg hm

/-- No clause of `simplify f lit` contains `lit` or `-lit`. -/
theorem simplify_eliminates {f : Formula} {lit : Int} :
    ∀ c ∈ simplify f lit, lit ∉ c ∧ -lit ∉ c := by
  intro c' hc'
  constructor
  · intro hm
    have := mem_join_simplify (List.mem_flatten.2 ⟨c', hc', hm⟩)
    exact this.2.1 rfl
  · intro hm
    have := mem_join_simplify (List.mem_flatten.2 ⟨c', hc', hm⟩)
    exact this.2.2 rfl

/-- A formula none of whose clauses mentions `lit` or `-lit` is unchanged by
`simplify _ lit`. -/
theorem simplify_of_not_mem {f : Formula} {lit : Int}
    (h : ∀ c ∈ f, lit ∉ c ∧ -lit ∉ c) : simplify f lit = f := by
  induction f with
  | nil => rfl
  | cons c f ih =>
    have hc := h c (List.mem_cons_self _ _)
    rw [simplify, if_neg hc.1, if_neg hc.2]
    rw [ih (fun d hd => h d (List.mem_cons_of_mem _ hd))]

/-! ## Variable sets -/

/-- The set of variable identifiers occurring in a formula. -/
def varsOf (f : Formula) : Finset Nat :=
  (f.flatten.map Int.natAbs).toFinset

theorem mem_varsOf {f : Formula} {v : Nat} :
    v ∈ varsOf f ↔ ∃ l ∈ f.flatten, l.natAbs = v := by
  simp only [varsOf, List.mem_toFinset, List.mem_map]

/-- `simplify` removes the variable of `lit` and introduces no variable. -/
theorem varsOf_simplify_subset {f : Formula} {lit : Int} :
    ∀ v ∈ varsOf (simplify f lit), v ∈ varsOf f ∧ v ≠ lit.natAbs := by
  intro v hv
  obtain ⟨l, hl, rfl⟩ := mem_varsOf.1 hv
  obtain ⟨hlf, hne1, hne2⟩ := mem_join_simplify hl
  refine ⟨mem_varsOf.2 ⟨l, hlf, rfl⟩, ?_⟩
  intro hEq
  rcases Int.natAbs_eq_natAbs_iff.1 hEq with h | h
  · exact hne1 h
  · exact hne2 h

/-- Strict decrease of the variable set when `lit`'s variable occurs. -/
theorem varsOf_simplify_ssubset {f : Formula} {lit : Int}
    (h : lit.natAbs ∈ varsOf f) : varsOf (simplify f lit) ⊂ varsOf f := by
  constructor
  · intro v hv; exact (varsOf_simplify_subset v hv).1
  · intro hsub
    have := varsOf_simplify_subset _ (hsub h)
    exact this.2 rfl

theorem varsOf_foldl_simplify_subset {ls : List Int} :
    ∀ {f : Formula}, ∀ v ∈ varsOf (ls.foldl simplify f), v ∈ varsOf f := by
  induction ls with
  | nil => intro f v hv; exact hv
  | cons l ls ih =>
    intro f v hv
    exact (varsOf_simplify_subset v (ih v hv)).1

theorem card_varsOf_foldl_simplify_lt {f : Formula} {l : Int} {ls : List Int}
    (h : l.natAbs ∈ varsOf f) :
    (varsOf ((l :: ls).foldl simplify f)).card < (varsOf f).card := by
  have h1 : varsOf (simplify f l) ⊂ varsOf f := varsOf_simplify_ssubset h
  have h2 : ∀ v ∈ varsOf (ls.foldl simplify (simplify f l)), v ∈ varsOf (simplify f l) :=
    varsOf_foldl_simplify_subset
  calc (varsOf ((l :: ls).foldl simplify f)).card
      ≤ (varsOf (simplify f l)).card := Finset.card_le_card (fun v hv => h2 v hv)
    _ < (varsOf f).card := Finset.card_lt_card h1

/-! ## Semantic properties of `simplify` -/

theorem clauseSat_iff {a : Nat → Bool} {c : Clause} :
    clauseSat a c = true ↔ ∃ l ∈ c, litSat a l = true := by
  simp [clauseSat]

theorem formulaSat_iff {a : Nat → Bool} {f : Formula} :
    formulaSat a f = true ↔ ∀ c ∈ f, clauseSat a c = true := by
  simp [formulaSat]

/-- Complementary literals have complementary truth values (for a nonzero
literal). -/
theorem litSat_neg {a : Nat → Bool} {l : Int} (h : l ≠ 0) :
    litSat a (-l) = !litSat a l := by
  unfold litSat
  rw [Int.natAbs_neg]
  by_cases hl : 0 < l
  · have hn : ¬(0 < -l) := by omega
    simp [hl, hn]
  · have hp : 0 < -l := by omega
    simp [hl, hp]

/-- A clause containing complementary nonzero literals is satisfied by every
assignment. -/
theorem clauseSat_of_taut {a : Nat → Bool} {c : Clause} {l : Int}
    (h0 : l ≠ 0) (h1 : l ∈ c) (h2 : -l ∈ c) : clauseSat a c = true := by
  rcases hb : litSat a l with _ | _
  · refine clauseSat_iff.2 ⟨-l, h2, ?_⟩
    rw [litSat_neg h0, hb]; rfl
  · exact clauseSat_iff.2 ⟨l, h1, hb⟩

/-- If `a` satisfies `lit` then simplifying by `lit` does not change the
truth value of the formula under `a` (for nonzero `lit`). -/
theorem formulaSat_simplify_of_litSat {a : Nat → Bool} {f : Formula} {lit : Int}
    (h0 : lit ≠ 0) (h : litSat a lit = true) :
    formulaSat a (simplify f lit) = formulaSat a f := by
  induction f with
  | nil => rfl
  | cons c f ih =>
    simp only [formulaSat] at ih
    by_cases h1 : lit ∈ c
    · have hc : clauseSat a c = true := clauseSat_iff.2 ⟨lit, h1, h⟩
      simp only [simplify, if_pos h1, formulaSat, List.all_cons, hc, Bool.true_and]
      exact ih
    · by_cases h2 : -lit ∈ c
      · simp only [simplify, if_neg h1, if_pos h2, formulaSat, List.all_cons]
        have hcc : clauseSat a (c.filter (fun l => l ≠ -lit)) = clauseSat a c := by
          rcases hcs : clauseSat a c with _ | _
          · rcases hcs' : clauseSat a (c.filter (fun l => l ≠ -lit)) with _ | _
            · rfl
            · obtain ⟨m, hm, hms⟩ := clauseSat_iff.1 hcs'
              rw [List.mem_filter] at hm
              exact absurd (clauseSat_iff.2 ⟨m, hm.1, hms⟩) (by simp [hcs])
          · obtain ⟨m, hm, hms⟩ := clauseSat_iff.1 hcs
            have hmne : m ≠ -lit := by
              rintro rfl
              rw [litSat_neg h0, h] at hms
              exact absurd hms (by simp)
            refine clauseSat_iff.2 ⟨m, List.mem_filter.2 ⟨hm, by simpa using hmne⟩, hms⟩
        rw [hcc, ih]
      · simp only [simplify, if_neg h1, if_neg h2, formulaSat, List.all_cons]
        rw [ih]

/-- The assignment obtained from `a` by forcing literal `lit` to be true. -/
def forceLit (a : Nat → Bool) (lit : Int) : Nat → Bool :=
  fun v => if v = lit.natAbs then decide (0 < lit) else a v

theorem litSat_forceLit_self {a : Nat → Bool} {lit : Int} :
    litSat (forceLit a lit) lit = true := by
  simp [litSat, forceLit]

theorem litSat_forceLit_of_ne {a : Nat → Bool} {lit m : Int}
    (h : m.natAbs ≠ lit.natAbs) :
    litSat (forceLit a lit) m = litSat a m := by
  simp [litSat, forceLit, h]

/-- Distinct literals on the same variable are complementary. -/
theorem eq_or_eq_neg_of_natAbs_eq {m lit : Int} (h : m.natAbs = lit.natAbs) :
    m = lit ∨ m = -lit := Int.natAbs_eq_natAbs_iff.1 h

/-- Completeness of one `simplify` step: a satisfying assignment of the
simplified formula extends (by forcing `lit` true) to one of the original. -/
theorem formulaSat_forceLit_of_simplify {a : Nat → Bool} {f : Formula} {lit : Int}
    (h : formulaSat a (simplify f lit) = true) :
    formulaSat (forceLit a lit) f = true := by
  rw [formulaSat_iff] at h ⊢
  intro c hc
  by_cases h1 : lit ∈ c
  · exact clauseSat_iff.2 ⟨lit, h1, litSat_forceLit_self⟩
  · by_cases h2 : -lit ∈ c
    · have hmem : c.filter (fun l => l ≠ -lit) ∈ simplify f lit := by
        clear h
        induction f with
        | nil => simp at hc
        | cons d f ih =>
          rcases List.mem_cons.1 hc with rfl | hd
          · simp only [simplify, if_neg h1, if_pos h2]
            exact List.mem_cons_self _ _
          · have := ih hd
            by_cases hd1 : lit ∈ d
            · simpa [simplify, hd1] using this
            · by_cases hd2 : -lit ∈ d
              · simp only [simplify, if_neg hd1, if_pos hd2]
                exact List.mem_cons_of_mem _ this
              · simp only [simplify, if_neg hd1, if_neg hd2]
                exact List.mem_cons_of_mem _ this
      obtain ⟨m, hm, hms⟩ := clauseSat_iff.1 (h _ hmem)
      rw [List.mem_filter] at hm
      have hmne : m ≠ -lit := by simpa using hm.2
      have habs : m.natAbs ≠ lit.natAbs := by
        intro hEq
        rcases eq_or_eq_neg_of_natAbs_eq hEq with rfl | rfl
        · exact h1 hm.1
        · exact hmne rfl
      exact clauseSat_iff.2 ⟨m, hm.1, by rw [litSat_forceLit_of_ne habs]; exact hms⟩
    · have hmem : c ∈ simplify f lit := by
        clear h
        induction f with
        | nil => simp at hc
        | cons d f ih =>
          rcases List.mem_cons.1 hc with rfl | hd
          · simp only [simplify, if_neg h1, if_neg h2]
            exact List.mem_cons_self _ _
          · have := ih hd
            by_cases hd1 : lit ∈ d
            · simpa [simplify, hd1] using this
            · by_cases hd2 : -lit ∈ d
              · simp only [simplify, if_neg hd1, if_pos hd2]
                exact List.mem_cons_of_mem _ this
              · simp only [simplify, if_neg hd1, if_neg hd2]
                exact List.mem_cons_of_mem _ this
      obtain ⟨m, hm, hms⟩ := clauseSat_iff.1 (h _ hmem)
      have habs : m.natAbs ≠ lit.natAbs := by
        intro hEq
        rcases eq_or_eq_neg_of_natAbs_eq hEq with rfl | rfl
        · exact h1 hm
        · exact h2 hm
      exact clauseSat_iff.2 ⟨m, hm, by rw [litSat_forceLit_of_ne habs]; exact hms⟩

theorem satisfiable_of_simplify {f : Formula} {lit : Int}
    (h : Satisfiable (simplify f lit)) : Satisfiable f := by
  obtain ⟨a, ha⟩ := h
  exact ⟨forceLit a lit, formulaSat_forceLit_of_simplify ha⟩

/-- Branching is complete: a satisfiable formula stays satisfiable after
simplifying by `lit` or by `-lit` (for nonzero `lit`). -/
theorem satisfiable_simplify_or {f : Formula} {lit : Int} (h0 : lit ≠ 0)
    (h : Satisfiable f) :
    Satisfiable (simplify f lit) ∨ Satisfiable (simplify f (-lit)) := by
  obtain ⟨a, ha⟩ := h
  rcases hl : litSat a lit with _ | _
  · right
    have hlneg : litSat a (-lit) = true := by rw [litSat_neg h0, hl]; rfl
    rw [← formulaSat_simplify_of_litSat (by omega : -lit ≠ 0) hlneg] at ha
    exact ⟨a, ha⟩
  · left
    rw [← formulaSat_simplify_of_litSat h0 hl] at ha
    exact ⟨a, ha⟩

/-! ## Unit propagation (the `while` loop of `dpll_solver`) -/

/-- The literal of a unit clause; mirrors `c[0] for c in formula if len(c) == 1`. -/
def unitLit : Clause → Option Int
  | [l] => some l
  | _ => none

theorem unitLit_eq_some {c : Clause} {u : Int} (h : unitLit c = some u) : c = [u] := by
  cases c with
  | nil => simp [unitLit] at h
  | cons l cs =>
    cases cs with
    | nil =>
      have : l = u := by simpa [unitLit] using h
      rw [this]
    | cons m cs => simp [unitLit] at h

theorem unit_clause_mem {f : Formula} {u : Int} (h : u ∈ f.filterMap unitLit) :
    [u] ∈ f := by
  obtain ⟨c, hc, hcu⟩ := List.mem_filterMap.1 h
  rwa [unitLit_eq_some hcu] at hc

theorem unit_lit_mem_flatten {f : Formula} {u : Int} (h : u ∈ f.filterMap unitLit) :
    u ∈ f.flatten :=
  List.mem_flatten.2 ⟨[u], unit_clause_mem h, List.mem_cons_self u []⟩

/-- The unit-propagation `while` loop of `dpll_solver` (Tester.py lines
123-128): collect the literals of all current unit clauses, simplify by each
of them in order, and repeat until no unit clause remains. -/
def unitProp (f : Formula) : Formula :=
  if h : f.filterMap unitLit = [] then f
  else unitProp ((f.filterMap unitLit).foldl simplify f)
termination_by (varsOf f).card
decreasing_by
  obtain ⟨u, us, huu⟩ := List.exists_cons_of_ne_nil h
  have hu : u.natAbs ∈ varsOf f :=
    mem_varsOf.2 ⟨u, unit_lit_mem_flatten (huu ▸ List.mem_cons_self u us), rfl⟩
  rw [huu]
  exact card_varsOf_foldl_simplify_lt hu

theorem varsOf_unitProp_subset {f : Formula} :
    ∀ v ∈ varsOf (unitProp f), v ∈ varsOf f := by
  induction f using unitProp.induct with
  | case1 f h =>
    rw [unitProp, dif_pos h]
    exact fun v hv => hv
  | case2 f h ih =>
    rw [unitProp, dif_neg h]
    exact fun v hv => varsOf_foldl_simplify_subset v (ih v hv)

/-- After `unitProp`, no unit clause remains. -/
theorem unitProp_no_units {f : Formula} :
    (unitProp f).filterMap unitLit = [] := by
  induction f using unitProp.induct with
  | case1 f h => rw [unitProp, dif_pos h]; exact h
  | case2 f h ih => rw [unitProp, dif_neg h]; exact ih

theorem mem_flatten_foldl_simplify {ls : List Int} :
    ∀ {f : Formula} {m : Int}, m ∈ (ls.foldl simplify f).flatten → m ∈ f.flatten := by
  induction ls with
  | nil => intro f m hm; exact hm
  | cons l ls ih =>
    intro f m hm
    exact (mem_join_simplify (ih hm)).1

theorem noZero_iff_flatten {f : Formula} :
    noZero f ↔ ∀ l ∈ f.flatten, l ≠ 0 := by
  unfold noZero
  constructor
  · intro h l hl
    obtain ⟨c, hc, hlc⟩ := List.mem_flatten.1 hl
    exact h c hc l hlc
  · intro h c hc l hlc
    exact h l (List.mem_flatten.2 ⟨c, hc, hlc⟩)

theorem noZero_simplify {f : Formula} {lit : Int} (h : noZero f) :
    noZero (simplify f lit) := by
  rw [noZero_iff_flatten] at h ⊢
  intro l hl
  exact h l (mem_join_simplify hl).1

theorem noZero_foldl_simplify {ls : List Int} {f : Formula} (h : noZero f) :
    noZero (ls.foldl simplify f) := by
  rw [noZero_iff_flatten] at h ⊢
  intro l hl
  exact h l (mem_flatten_foldl_simplify hl)

theorem satisfiable_of_foldl_simplify {ls : List Int} :
    ∀ {f : Formula}, Satisfiable (ls.foldl simplify f) → Satisfiable f := by
  induction ls with
  | nil => intro f h; exact h
  | cons l ls ih =>
    intro f h
    exact satisfiable_of_simplify (ih h)

theorem formulaSat_foldl_simplify {a : Nat → Bool} {ls : List Int} :
    ∀ {f : Formula}, (∀ u ∈ ls, litSat a u = true ∧ u ≠ 0) →
      formulaSat a (ls.foldl simplify f) = formulaSat a f := by
  induction ls with
  | nil => intro f _; rfl
  | cons l ls ih =>
    intro f h
    have hl := h l (List.mem_cons_self _ _)
    rw [List.foldl_cons, ih (fun u hu => h u (List.mem_cons_of_mem _ hu)),
      formulaSat_simplify_of_litSat hl.2 hl.1]

/-- Unit propagation preserves satisfiability (for formulas with nonzero
literals). -/
theorem satisfiable_unitProp_iff {f : Formula} (h0 : noZero f) :
    Satisfiable (unitProp f) ↔ Satisfiable f := by
  induction f using unitProp.induct with
  | case1 f h => rw [unitProp, dif_pos h]
  | case2 f h ih =>
    rw [unitProp, dif_neg h]
    have h0' : noZero ((f.filterMap unitLit).foldl simplify f) := noZero_foldl_simplify h0
    rw [ih h0']
    constructor
    · exact satisfiable_of_foldl_simplify
    · rintro ⟨a, ha⟩
      refine ⟨a, ?_⟩
      rw [formulaSat_foldl_simplify ?_]
      · exact ha
      · intro u hu
        have hcl : [u] ∈ f := unit_clause_mem hu
        have hz : u ≠ 0 := h0 [u] hcl u (List.mem_cons_self _ _)
        have : clauseSat a [u] = true := formulaSat_iff.1 ha _ hcl
        obtain ⟨m, hm, hms⟩ := clauseSat_iff.1 this
        rcases List.mem_singleton.1 hm with rfl
        exact ⟨hms, hz⟩

theorem noZero_unitProp {f : Formula} (h0 : noZero f) : noZero (unitProp f) := by
  induction f using unitProp.induct with
  | case1 f h => rwa [unitProp, dif_pos h]
  | case2 f h ih =>
    rw [unitProp, dif_neg h]
    exact ih (noZero_foldl_simplify h0)

/-! ## Pure-literal elimination (the single pass of `dpll_solver`) -/

/-- First-seen-order deduplication; mirrors Python's `dict.fromkeys` (and is
used to model iteration over `set(...)`, whose order CPython leaves
unspecified; the places where it is used are insensitive to the order). -/
def fromKeys {α : Type} [DecidableEq α] (acc : List α) : List α → List α
  | [] => []
  | x :: xs => if x ∈ acc then fromKeys acc xs else x :: fromKeys (x :: acc) xs

theorem mem_fromKeys {α : Type} [DecidableEq α] {xs : List α} :
    ∀ {acc : List α} {x : α}, x ∈ fromKeys acc xs ↔ x ∈ xs ∧ x ∉ acc := by
  induction xs with
  | nil => intro acc x; simp [fromKeys]
  | cons y ys ih =>
    intro acc x
    by_cases hy : y ∈ acc
    · rw [fromKeys, if_pos hy, ih]
      constructor
      · rintro ⟨h1, h2⟩
        exact ⟨List.mem_cons_of_mem _ h1, h2⟩
      · rintro ⟨h1, h2⟩
        rcases List.mem_cons.1 h1 with rfl | h1
        · exact absurd hy h2
        · exact ⟨h1, h2⟩
    · rw [fromKeys, if_neg hy]
      constructor
      · intro h1
        rcases List.mem_cons.1 h1 with rfl | h1
        · exact ⟨List.mem_cons_self _ _, hy⟩
        · obtain ⟨ha, hb⟩ := ih.1 h1
          refine ⟨List.mem_cons_of_mem _ ha, fun hc => hb (List.mem_cons_of_mem _ hc)⟩
      · rintro ⟨h1, h2⟩
        rcases List.mem_cons.1 h1 with rfl | h1
        · exact List.mem_cons_self _ _
        · by_cases hxy : x = y
          · subst hxy; exact List.mem_cons_self _ _
          · exact List.mem_cons_of_mem _
              (ih.2 ⟨h1, fun hc => (List.mem_cons.1 hc).elim hxy h2⟩)

/-- The pure-literal pass of `dpll_solver` (Tester.py lines 129-133): the
pure variables and their polarities are computed once, from the formula as
it stands after unit propagation, and the formula is simplified by each pure
literal in turn. -/
def purePass (f : Formula) : Formula :=
  let lits := f.flatten
  let pures := (fromKeys [] (lits.map Int.natAbs)).filter
    (fun v : Nat => (decide ((v : Int) ∈ lits)).xor (decide (-(v : Int) ∈ lits)))
  (pures.map (fun v : Nat => if (v : Int) ∈ lits then (v : Int) else -(v : Int))).foldl simplify f

/-- Each literal the pure pass simplifies by is nonzero (given `noZero`) and
its negation does not occur in the formula. -/
theorem purePass_lit_props {f : Formula} (h0 : noZero f) {v : Nat}
    (hv : v ∈ (fromKeys [] (f.flatten.map Int.natAbs)).filter
      (fun w : Nat => (decide ((w : Int) ∈ f.flatten)).xor (decide (-(w : Int) ∈ f.flatten)))) :
    (if (v : Int) ∈ f.flatten then (v : Int) else -(v : Int)) ≠ 0 ∧
      -(if (v : Int) ∈ f.flatten then (v : Int) else -(v : Int)) ∉ f.flatten := by
  rw [List.mem_filter] at hv
  obtain ⟨hv1, hv2⟩ := hv
  have hvz : v ≠ 0 := by
    obtain ⟨l, hl, rfl⟩ := List.mem_map.1 (mem_fromKeys.1 hv1).1
    have := (noZero_iff_flatten.1 h0) l hl
    omega
  by_cases hp : (v : Int) ∈ f.flatten
  · rw [if_pos hp]
    refine ⟨by exact_mod_cast hvz, ?_⟩
    intro hneg
    simp [hp, hneg] at hv2
  · rw [if_neg hp]
    refine ⟨by simpa using hvz, ?_⟩
    simpa using hp

theorem satisfiable_foldl_pure {ls : List Int} :
    ∀ {f : Formula}, (∀ l ∈ ls, l ≠ 0 ∧ -l ∉ f.flatten) →
      Satisfiable f → Satisfiable (ls.foldl simplify f) := by
  induction ls with
  | nil => intro f _ h; exact h
  | cons l ls ih =>
    intro f hls ⟨a, ha⟩
    obtain ⟨hz, hneg⟩ := hls l (List.mem_cons_self _ _)
    have ha' : formulaSat (forceLit a l) f = true := by
      rw [formulaSat_iff] at ha ⊢
      intro c hc
      by_cases hl : l ∈ c
      · exact clauseSat_iff.2 ⟨l, hl, litSat_forceLit_self⟩
      · obtain ⟨m, hm, hms⟩ := clauseSat_iff.1 (ha c hc)
        have : m.natAbs ≠ l.natAbs := by
          intro hEq
          rcases eq_or_eq_neg_of_natAbs_eq hEq with rfl | rfl
          · exact hl hm
          · exact hneg (List.mem_flatten.2 ⟨c, hc, hm⟩)
        exact clauseSat_iff.2 ⟨m, hm, by rw [litSat_forceLit_of_ne this]; exact hms⟩
    rw [List.foldl_cons]
    refine ih ?_ ⟨forceLit a l, ?_⟩
    · intro m hms
      obtain ⟨hz', hneg'⟩ := hls m (List.mem_cons_of_mem _ hms)
      exact ⟨hz', fun hc => hneg' (mem_join_simplify hc).1⟩
    · rw [formulaSat_simplify_of_litSat hz litSat_forceLit_self]
      exact ha'

/-- The pure-literal pass preserves satisfiability (for formulas with
nonzero literals). -/
theorem satisfiable_purePass_iff {f : Formula} (h0 : noZero f) :
    Satisfiable (purePass f) ↔ Satisfiable f := by
  constructor
  · exact satisfiable_of_foldl_simplify
  · intro h
    refine satisfiable_foldl_pure ?_ h
    intro l hl
    obtain ⟨v, hv, rfl⟩ := List.mem_map.1 hl
    exact purePass_lit_props h0 hv

theorem varsOf_purePass_subset {f : Formula} :
    ∀ v ∈ varsOf (purePass f), v ∈ varsOf f :=
  varsOf_foldl_simplify_subset

theorem noZero_purePass {f : Formula} (h0 : noZero f) : noZero (purePass f) :=
  noZero_foldl_simplify h0

/-! ## The DPLL solver -/

theorem headI_headI_mem_flatten {f : Formula} (h1 : f ≠ [])
    (h2 : f.any (fun c => c.isEmpty) = false) : f.headI.headI ∈ f.flatten := by
  cases f with
  | nil => exact absurd rfl h1
  | cons c f =>
    cases c with
    | nil => simp at h2
    | cons l cs => simp [List.headI]

theorem dpll_measure_lt {f : Formula} {lit : Int}
    (h1 : purePass (unitProp f) ≠ [])
    (h2 : (purePass (unitProp f)).any (fun c => c.isEmpty) = false)
    (hl : lit.natAbs = ((purePass (unitProp f)).headI.headI).natAbs) :
    (varsOf (simplify (purePass (unitProp f)) lit)).card < (varsOf f).card := by
  have hmem : ((purePass (unitProp f)).headI.headI) ∈ (purePass (unitProp f)).flatten :=
    headI_headI_mem_flatten h1 h2
  have hvar : lit.natAbs ∈ varsOf (purePass (unitProp f)) := by
    rw [hl]
    exact mem_varsOf.2 ⟨_, hmem, rfl⟩
  have hssub := varsOf_simplify_ssubset hvar
  have hsub : ∀ v ∈ varsOf (purePass (unitProp f)), v ∈ varsOf f := fun v hv =>
    varsOf_unitProp_subset v (varsOf_purePass_subset v hv)
  calc (varsOf (simplify (purePass (unitProp f)) lit)).card
      < (varsOf (purePass (unitProp f))).card := Finset.card_lt_card hssub
    _ ≤ (varsOf f).card := Finset.card_le_card (fun v hv => hsub v hv)

/-- `dpll_solver` of Tester.py (lines 112-140): unit propagation to a
fixpoint, one pure-literal pass, the two termination checks, then branching
on the first literal of the first clause, with Python's short-circuiting
`or` between the two branches. -/
def dpll_solver (f : Formula) : Bool :=
  if _h1 : purePass (unitProp f) = [] then true
  else if _h2 : (purePass (unitProp f)).any (fun c => c.isEmpty) then false
  else
    dpll_solver (simplify (purePass (unitProp f)) (purePass (unitProp f)).headI.headI)
      || dpll_solver (simplify (purePass (unitProp f)) (-(purePass (unitProp f)).headI.headI))
termination_by (varsOf f).card
decreasing_by
  · exact dpll_measure_lt _h1 (Bool.not_eq_true _ ▸ _h2) rfl
  · exact dpll_measure_lt _h1 (Bool.not_eq_true _ ▸ _h2) (Int.natAbs_neg _)

/-- An empty clause admits no satisfying assignment. -/
theorem not_satisfiable_of_empty_clause {f : Formula} (h : [] ∈ f) :
    ¬ Satisfiable f := by
  rintro ⟨a, ha⟩
  have := formulaSat_iff.1 ha [] h
  simp [clauseSat] at this

theorem satisfiable_nil : Satisfiable [] :=
  ⟨fun _ => false, rfl⟩

/-- Total correctness of the embedded `dpll_solver`: for formulas with
nonzero literals it returns `true` exactly on satisfiable formulas. -/
theorem dpll_solver_correct {f : Formula} (h0 : noZero f) :
    dpll_solver f = true ↔ Satisfiable f := by
  induction f using dpll_solver.induct with
  | case1 f h1 =>
    rw [dpll_solver, dif_pos h1]
    have : Satisfiable f := by
      rw [← satisfiable_unitProp_iff h0, ← satisfiable_purePass_iff (noZero_unitProp h0), h1]
      exact satisfiable_nil
    simp [this]
  | case2 f h1 h2 =>
    rw [dpll_solver, dif_neg h1, dif_pos h2]
    obtain ⟨c, hc, hce⟩ := List.any_eq_true.1 h2
    have hc' : [] ∈ purePass (unitProp f) := by
      rwa [List.isEmpty_iff.1 hce] at hc
    have : ¬ Satisfiable f := by
      rw [← satisfiable_unitProp_iff h0, ← satisfiable_purePass_iff (noZero_unitProp h0)]
      exact not_satisfiable_of_empty_clause hc'
    simp [this]
  | case3 f h1 h2 ih1 ih2 =>
    rw [dpll_solver, dif_neg h1, dif_neg h2]
    have h2' : (purePass (unitProp f)).any (fun c => c.isEmpty) = false :=
      Bool.not_eq_true _ ▸ h2
    have h0' : noZero (purePass (unitProp f)) := noZero_purePass (noZero_unitProp h0)
    have hlit : ((purePass (unitProp f)).headI.headI) ∈ (purePass (unitProp f)).flatten :=
      headI_headI_mem_flatten h1 h2'
    have hlz : ((purePass (unitProp f)).headI.headI) ≠ 0 :=
      noZero_iff_flatten.1 h0' _ hlit
    have hs1 : noZero (simplify (purePass (unitProp f)) ((purePass (unitProp f)).headI.headI)) :=
      noZero_simplify h0'
    have hs2 : noZero (simplify (purePass (unitProp f)) (-(purePass (unitProp f)).headI.headI)) :=
      noZero_simplify h0'
    rw [Bool.or_eq_true, ih1 hs1, ih2 hs2]
    rw [← satisfiable_unitProp_iff h0, ← satisfiable_purePass_iff (noZero_unitProp h0)]
    constructor
    · rintro (h | h)
      · exact satisfiable_of_simplify h
      · exact satisfiable_of_simplify h
    · intro h
      exact satisfiable_simplify_or hlz h

/-! ## The brute-force solver -/

/-- `n = max(abs(l) for c in formula for l in c)` of `brute_force_solver`,
as a fold (Python's `max` over the generator of all literal magnitudes). -/
def maxVar (f : Formula) : Nat :=
  f.flatten.foldl (fun m l => max m l.natAbs) 0

theorem le_maxVar {f : Formula} : ∀ l ∈ f.flatten, l.natAbs ≤ maxVar f := by
  unfold maxVar
  generalize f.flatten = ls
  have key : ∀ (ls : List Int) (m : Nat), m ≤ ls.foldl (fun m l => max m l.natAbs) m ∧
      ∀ l ∈ ls, l.natAbs ≤ ls.foldl (fun m l => max m l.natAbs) m := by
    intro ls
    induction ls with
    | nil => intro m; exact ⟨Nat.le_refl m, by simp⟩
    | cons l ls ih =>
      intro m
      refine ⟨?_, ?_⟩
      · exact le_trans (le_max_left m l.natAbs) (ih (max m l.natAbs)).1
      · intro x hx
        rcases List.mem_cons.1 hx with rfl | hx
        · exact le_trans (le_max_right m x.natAbs) (ih (max m x.natAbs)).1
        · exact (ih (max m l.natAbs)).2 x hx
  exact (key ls 0).2

/-- Evaluation of one literal under an integer mask, exactly as in
`brute_force_solver`: `(lit > 0) == bool((mask >> (abs(lit)-1)) & 1)`. -/
def maskEval (mask : Nat) (l : Int) : Bool :=
  (decide (0 < l)) == mask.testBit (l.natAbs - 1)

/-- `brute_force_solver` of Tester.py (lines 66-75).  Python's
`max(abs(l) for c in formula for l in c)` raises `ValueError` when the
formula has no literals at all (in particular on the empty formula), which
is modelled by returning `none`; otherwise all masks `0 .. 2^n - 1` are
tried in order and the result says whether some mask satisfies every
clause.  (For the nonzero literals produced by the parser, `testBit mask
(natAbs l - 1)` is exactly Python's `(mask >> (abs(l)-1)) & 1`.) -/
def brute_force_solver (f : Formula) : Option Bool :=
  if f.flatten = [] then none
  else some ((List.range (2 ^ maxVar f)).any
    (fun mask => f.all (fun c => c.any (maskEval mask))))

/-- The assignment read off from a mask: variable `i` is true iff bit
`i - 1` of the mask is set. -/
def maskAssign (mask : Nat) : Nat → Bool :=
  fun v => mask.testBit (v - 1)

theorem formulaSat_maskAssign {mask : Nat} {f : Formula} :
    formulaSat (maskAssign mask) f = f.all (fun c => c.any (maskEval mask)) := rfl

/-- The mask whose bits `0 .. n-1` encode the assignment `a` on the
variables `1 .. n`. -/
def maskOf (a : Nat → Bool) : Nat → Nat
  | 0 => 0
  | n+1 => 2 ^ n * (if a (n+1) then 1 else 0) + maskOf a n

theorem maskOf_lt {a : Nat → Bool} : ∀ n, maskOf a n < 2 ^ n := by
  intro n
  induction n with
  | zero => simp [maskOf]
  | succ n ih =>
    rw [maskOf]
    have hb : (if a (n+1) then 1 else 0) ≤ 1 := by split <;> simp
    have h2 : 2 ^ (n+1) = 2 ^ n + 2 ^ n := by rw [pow_succ]; omega
    have h3 : 2 ^ n * (if a (n+1) then 1 else 0) ≤ 2 ^ n := by
      calc 2 ^ n * (if a (n+1) then 1 else 0) ≤ 2 ^ n * 1 :=
        Nat.mul_le_mul_left _ hb
      _ = 2 ^ n := Nat.mul_one _
    omega

theorem testBit_maskOf {a : Nat → Bool} :
    ∀ {n i : Nat}, i < n → (maskOf a n).testBit i = a (i + 1) := by
  intro n
  induction n with
  | zero => intro i h; omega
  | succ n ih =>
    intro i hi
    rw [maskOf, Nat.testBit_mul_pow_two_add _ (maskOf_lt n) i]
    rcases Nat.lt_succ_iff_lt_or_eq.1 hi with hlt | rfl
    · rw [if_pos hlt]
      exact ih hlt
    · rw [if_neg (Nat.lt_irrefl i), Nat.sub_self]
      rcases hA : a (i+1) with _ | _ <;> simp [hA]

/-- Truth of a formula depends only on the assignment's values at the
occurring variables. -/
theorem formulaSat_congr {a b : Nat → Bool} {f : Formula}
    (h : ∀ v ∈ varsOf f, a v = b v) : formulaSat a f = formulaSat b f := by
  rcases hb : formulaSat b f with _ | _
  · rcases ha : formulaSat a f with _ | _
    · rfl
    · exfalso
      rw [formulaSat_iff] at ha
      have : formulaSat b f = true := by
        rw [formulaSat_iff]
        intro c hc
        obtain ⟨m, hm, hms⟩ := clauseSat_iff.1 (ha c hc)
        refine clauseSat_iff.2 ⟨m, hm, ?_⟩
        rw [litSat, ← h m.natAbs (mem_varsOf.2 ⟨m, List.mem_flatten.2 ⟨c, hc, hm⟩, rfl⟩)]
        exact hms
      rw [this] at hb; exact Bool.true_eq_false ▸ hb.symm ▸ rfl
  · rw [formulaSat_iff] at hb
    rw [formulaSat_iff]
    intro c hc
    obtain ⟨m, hm, hms⟩ := clauseSat_iff.1 (hb c hc)
    refine clauseSat_iff.2 ⟨m, hm, ?_⟩
    rw [litSat, h m.natAbs (mem_varsOf.2 ⟨m, List.mem_flatten.2 ⟨c, hc, hm⟩, rfl⟩)]
    exact hms

/-- Correctness of the embedded `brute_force_solver` on formulas with
nonzero literals: whenever it returns a verdict, the verdict is `true`
exactly on satisfiable formulas. -/
theorem brute_force_solver_correct {f : Formula} {b : Bool} (h0 : noZero f)
    (h : brute_force_solver f = some b) : b = true ↔ Satisfiable f := by
  unfold brute_force_solver at h
  by_cases hfl : f.flatten = []
  · rw [if_pos hfl] at h; exact absurd h (by simp)
  · rw [if_neg hfl] at h
    have hb := (Option.some_inj.1 h).symm
    subst hb
    constructor
    · intro hany
      obtain ⟨mask, _, hmask⟩ := List.any_eq_true.1 hany
      exact ⟨maskAssign mask, by rw [formulaSat_maskAssign]; exact hmask⟩
    · rintro ⟨a, ha⟩
      refine List.any_eq_true.2 ⟨maskOf a (maxVar f), ?_, ?_⟩
      · exact List.mem_range.2 (maskOf_lt _)
      · rw [← formulaSat_maskAssign]
        rw [formulaSat_congr (a := maskAssign (maskOf a (maxVar f))) (b := a) ?_]
        · exact ha
        · intro v hv
          obtain ⟨l, hl, rfl⟩ := mem_varsOf.1 hv
          have h1 : l.natAbs ≤ maxVar f := le_maxVar l hl
          have h2 : l ≠ 0 := noZero_iff_flatten.1 h0 l hl
          have h3 : 1 ≤ l.natAbs := by omega
          unfold maskAssign
          rw [testBit_maskOf (by omega), Nat.sub_add_cancel h3]

/-! ## The Davis-Putnam solver

`dp_solver` (Tester.py lines 77-110) runs a recursive procedure `resolve`
threading a set of already-seen canonical signatures and a step counter.
The step counter is modelled as fuel counting the remaining allowed calls
(`MAX_DP_STEPS` at the top-level entry); the wall-clock check is not
modelled.  `frozenset(frozenset(c) for c in fm)` becomes a
`Finset (Finset Int)`. -/

abbrev Sig := Finset (Finset Int)

/-- `sig = frozenset(frozenset(c) for c in fm)`. -/
def sigOf (f : Formula) : Sig :=
  (f.map (fun c => c.toFinset)).toFinset

/-- The concatenation of the literals of `p` and `q`, without the literals
of the eliminated variable `x`:
`rc = [l for l in p if abs(l)!=x] + [l for l in q if abs(l)!=x]`. -/
def resolventCore (x : Nat) (p q : Clause) : Clause :=
  p.filter (fun l => l.natAbs ≠ x) ++ q.filter (fun l => l.natAbs ≠ x)

/-- The tautology test `any(-lit in S for lit in S)` with `S = set(rc)`
(quantifying over the list has the same truth value as over its set). -/
def tautCheck (rc : Clause) : Bool :=
  rc.any (fun l => decide (-l ∈ rc))

/-- One elimination step of `resolve` (Tester.py lines 97-109): the next
formula `rest + new`, where `x` is the variable of the first literal of the
first clause, `rest` keeps the clauses mentioning neither `x` nor `-x`, and
`new` collects, for `p` ranging over the clauses containing `x` and `q`
over those containing `-x`, the deduplicated (`dict.fromkeys`) resolvent,
skipping tautological ones. -/
def dpStep (fm : Formula) : Formula :=
  let x := (fm.headI.headI).natAbs
  (fm.filter (fun c => !(decide ((x : Int) ∈ c)) && !(decide (-(x : Int) ∈ c))))
    ++ (fm.filter (fun c => decide ((x : Int) ∈ c))).flatMap
        (fun p => (fm.filter (fun c => decide (-(x : Int) ∈ c))).filterMap
          (fun q => if tautCheck (resolventCore x p q) then none
                    else some (fromKeys [] (resolventCore x p q))))

/-- The recursive `resolve(fm, seen, steps)` of `dp_solver`.  `fuel` is the
number of calls the step budget still allows: a call with `fuel = 0` is the
call on which Python's `steps[0] > MAX_DP_STEPS` check fires and the whole
invocation aborts (`none`).  Branch order matches the source: budget check,
signature already seen (`False`), empty formula (`True`), empty clause
(`False`), recursion on `rest + new` with the signature added. -/
def resolveAux : Nat → Formula → Finset Sig → Option Bool
  | 0, _, _ => none
  | fuel+1, fm, seen =>
    if sigOf fm ∈ seen then some false
    else if fm = [] then some true
    else if fm.any (fun c => c.isEmpty) then some false
    else resolveAux fuel (dpStep fm) (insert (sigOf fm) seen)

/-- `dp_solver(formula)`: run `resolve` with an empty seen-set and the full
step budget. -/
def dp_solver (f : Formula) : Option Bool :=
  resolveAux MAX_DP_STEPS f ∅

theorem resolveAux_succ (fuel : Nat) (fm : Formula) (seen : Finset Sig) :
    resolveAux (fuel + 1) fm seen =
      if sigOf fm ∈ seen then some false
      else if fm = [] then some true
      else if fm.any (fun c => c.isEmpty) then some false
      else resolveAux fuel (dpStep fm) (insert (sigOf fm) seen) := rfl

/-- Observer of the cycle-guard branch of `resolveAux`: it mirrors the
branch structure of `resolveAux` exactly and returns `true` iff some call
in the execution takes the `sig in seen` branch. -/
def guardHit : Nat → Formula → Finset Sig → Bool
  | 0, _, _ => false
  | fuel+1, fm, seen =>
    if sigOf fm ∈ seen then true
    else if fm = [] then false
    else if fm.any (fun c => c.isEmpty) then false
    else guardHit fuel (dpStep fm) (insert (sigOf fm) seen)

theorem any_isEmpty_eq_false {f : Formula} :
    f.any (fun c => c.isEmpty) = false ↔ ∀ c ∈ f, c ≠ [] := by
  rw [List.any_eq_false]
  constructor
  · intro h c hc
    have := h c hc
    simpa [List.isEmpty_iff] using this
  · intro h c hc
    simpa [List.isEmpty_iff] using h c hc

theorem ite_taut_eq_some {rc c : Clause} :
    (if tautCheck rc then none else some (fromKeys [] rc)) = some c ↔
      tautCheck rc = false ∧ fromKeys [] rc = c := by
  rcases h : tautCheck rc with _ | _ <;> simp [h]

/-- Membership characterisation of one Davis-Putnam step. -/
theorem mem_dpStep {fm : Formula} {c' : Clause} :
    c' ∈ dpStep fm ↔
      (c' ∈ fm ∧ ((fm.headI.headI).natAbs : Int) ∉ c' ∧
        -((fm.headI.headI).natAbs : Int) ∉ c')
      ∨ (∃ p ∈ fm, ((fm.headI.headI).natAbs : Int) ∈ p ∧
          ∃ q ∈ fm, -((fm.headI.headI).natAbs : Int) ∈ q ∧
            tautCheck (resolventCore (fm.headI.headI).natAbs p q) = false ∧
            c' = fromKeys [] (resolventCore (fm.headI.headI).natAbs p q)) := by
  unfold dpStep
  rw [List.mem_append]
  constructor
  · rintro (h | h)
    · rw [List.mem_filter] at h
      obtain ⟨h1, h2⟩ := h
      simp only [Bool.and_eq_true, Bool.not_eq_true', decide_eq_false_iff_not] at h2
      exact Or.inl ⟨h1, h2.1, h2.2⟩
    · rw [List.mem_flatMap] at h
      obtain ⟨p, hp, hq⟩ := h
      rw [List.mem_filter] at hp
      rw [List.mem_filterMap] at hq
      obtain ⟨q, hq, heq⟩ := hq
      rw [List.mem_filter] at hq
      rw [ite_taut_eq_some] at heq
      exact Or.inr ⟨p, hp.1, by simpa using hp.2, q, hq.1, by simpa using hq.2,
        heq.1, heq.2.symm⟩
  · rintro (⟨h1, h2, h3⟩ | ⟨p, hp, hpx, q, hq, hqx, htc, hc⟩)
    · refine Or.inl (List.mem_filter.2 ⟨h1, ?_⟩)
      simp only [Bool.and_eq_true, Bool.not_eq_true', decide_eq_false_iff_not]
      exact ⟨h2, h3⟩
    · refine Or.inr (List.mem_flatMap.2 ⟨p, List.mem_filter.2
        ⟨hp, by simp only [decide_eq_true_eq]; exact hpx⟩, ?_⟩)
      refine List.mem_filterMap.2 ⟨q, List.mem_filter.2
        ⟨hq, by simp only [decide_eq_true_eq]; exact hqx⟩, ?_⟩
      rw [ite_taut_eq_some]
      exact ⟨htc, hc.symm⟩

theorem mem_resolventCore {x : Nat} {p q : Clause} {m : Int} :
    m ∈ resolventCore x p q ↔ (m ∈ p ∨ m ∈ q) ∧ m.natAbs ≠ x := by
  unfold resolventCore
  rw [List.mem_append, List.mem_filter, List.mem_filter]
  simp only [decide_eq_true_eq]
  constructor
  · rintro (⟨h1, h2⟩ | ⟨h1, h2⟩)
    · exact ⟨Or.inl h1, h2⟩
    · exact ⟨Or.inr h1, h2⟩
  · rintro ⟨h1 | h1, h2⟩
    · exact Or.inl ⟨h1, h2⟩
    · exact Or.inr ⟨h1, h2⟩

/-- The eliminated variable is entirely absent from the next formula, and
no new literal appears. -/
theorem mem_flatten_dpStep {fm : Formula} {m : Int}
    (h : m ∈ (dpStep fm).flatten) :
    m ∈ fm.flatten ∧ m.natAbs ≠ (fm.headI.headI).natAbs := by
  obtain ⟨c', hc', hm⟩ := List.mem_flatten.1 h
  rcases mem_dpStep.1 hc' with ⟨h1, h2, h3⟩ | ⟨p, hp, _, q, hq, _, _, rfl⟩
  · refine ⟨List.mem_flatten.2 ⟨c', h1, hm⟩, ?_⟩
    intro hEq
    have hcast : m.natAbs = (((fm.headI.headI).natAbs : Int)).natAbs := by
      rw [hEq, Int.natAbs_ofNat]
    rcases eq_or_eq_neg_of_natAbs_eq hcast with rfl | rfl
    · exact h2 hm
    · exact h3 hm
  · have := (mem_fromKeys.1 hm).1
    rw [mem_resolventCore] at this
    obtain ⟨hmem, hne⟩ := this
    rcases hmem with hmem | hmem
    · exact ⟨List.mem_flatten.2 ⟨p, hp, hmem⟩, hne⟩
    · exact ⟨List.mem_flatten.2 ⟨q, hq, hmem⟩, hne⟩

theorem varsOf_dpStep {fm : Formula} :
    ∀ v ∈ varsOf (dpStep fm), v ∈ varsOf fm ∧ v ≠ (fm.headI.headI).natAbs := by
  intro v hv
  obtain ⟨l, hl, rfl⟩ := mem_varsOf.1 hv
  obtain ⟨h1, h2⟩ := mem_flatten_dpStep hl
  exact ⟨mem_varsOf.2 ⟨l, h1, rfl⟩, h2⟩

theorem noZero_dpStep {fm : Formula} (h0 : noZero fm) : noZero (dpStep fm) := by
  rw [noZero_iff_flatten] at h0 ⊢
  intro l hl
  exact h0 l (mem_flatten_dpStep hl).1

theorem noTaut_dpStep {fm : Formula} (ht : noTaut fm) : noTaut (dpStep fm) := by
  intro c' hc' l hl hnl
  rcases mem_dpStep.1 hc' with ⟨h1, _, _⟩ | ⟨p, _, _, q, _, _, htc, rfl⟩
  · exact ht c' h1 l hl hnl
  · have hl' := (mem_fromKeys.1 hl).1
    have hnl' := (mem_fromKeys.1 hnl).1
    have := List.any_eq_false.1 htc l hl'
    simp only [decide_eq_true_eq] at this
    exact this hnl'

/-! ## The cycle guard of `dp_solver` -/

/-- The variables mentioned in a canonical signature. -/
def sigVarsOf (s : Sig) : Finset Nat :=
  s.biUnion (fun c => c.image Int.natAbs)

theorem mem_sigVarsOf_sigOf {fm : Formula} {v : Nat} :
    v ∈ sigVarsOf (sigOf fm) ↔ v ∈ varsOf fm := by
  simp only [sigVarsOf, sigOf, Finset.mem_biUnion, Finset.mem_image,
    List.mem_toFinset, List.mem_map, mem_varsOf, List.mem_flatten]
  constructor
  · rintro ⟨s, ⟨c, hc, rfl⟩, l, hl, rfl⟩
    exact ⟨l, ⟨c, hc, List.mem_toFinset.1 hl⟩, rfl⟩
  · rintro ⟨l, ⟨c, hc, hl⟩, rfl⟩
    exact ⟨c.toFinset, ⟨c, hc, rfl⟩, l, List.mem_toFinset.2 hl, rfl⟩

/-- Invariant threaded through the recursion of `resolve`: every signature
already seen mentions a variable that the current formula no longer has. -/
def seenInv (seen : Finset Sig) (fm : Formula) : Prop :=
  ∀ s ∈ seen, ∃ v ∈ sigVarsOf s, v ∉ varsOf fm

theorem seenInv_empty {fm : Formula} : seenInv ∅ fm := by
  intro s hs
  exact absurd hs (Finset.not_mem_empty s)

/-- Under the invariant, the current signature has not been seen. -/
theorem sig_not_mem_of_seenInv {seen : Finset Sig} {fm : Formula}
    (h : seenInv seen fm) : sigOf fm ∉ seen := by
  intro hmem
  obtain ⟨v, hv1, hv2⟩ := h _ hmem
  exact hv2 (mem_sigVarsOf_sigOf.1 hv1)

/-- The eliminated variable occurs in the current formula. -/
theorem elimVar_mem_varsOf {fm : Formula} (h1 : fm ≠ [])
    (h2 : fm.any (fun c => c.isEmpty) = false) :
    (fm.headI.headI).natAbs ∈ varsOf fm :=
  mem_varsOf.2 ⟨_, headI_headI_mem_flatten h1 h2, rfl⟩

/-- The invariant is preserved by one elimination step. -/
theorem seenInv_step {seen : Finset Sig} {fm : Formula}
    (h : seenInv seen fm) (h1 : fm ≠ [])
    (h2 : fm.any (fun c => c.isEmpty) = false) :
    seenInv (insert (sigOf fm) seen) (dpStep fm) := by
  intro s hs
  rcases Finset.mem_insert.1 hs with rfl | hs
  · refine ⟨(fm.headI.headI).natAbs,
      mem_sigVarsOf_sigOf.2 (elimVar_mem_varsOf h1 h2), ?_⟩
    intro hmem
    exact (varsOf_dpStep _ hmem).2 rfl
  · obtain ⟨v, hv1, hv2⟩ := h s hs
    exact ⟨v, hv1, fun hc => hv2 (varsOf_dpStep _ hc).1⟩

/-- From the invariant, the cycle-guard branch is never taken. -/
theorem guardHit_eq_false {fuel : Nat} :
    ∀ {fm : Formula} {seen : Finset Sig}, seenInv seen fm →
      guardHit fuel fm seen = false := by
  induction fuel with
  | zero => intro fm seen _; rfl
  | succ fuel ih =>
    intro fm seen h
    rw [guardHit, if_neg (sig_not_mem_of_seenInv h)]
    by_cases h1 : fm = []
    · rw [if_pos h1]
    · rw [if_neg h1]
      rcases h2 : fm.any (fun c => c.isEmpty) with _ | _
      · rw [if_neg (by simp [h2])]
        exact ih (seenInv_step h h1 h2)
      · rw [if_pos (by simp [h2])]

/-! ## Soundness and completeness of one Davis-Putnam elimination step -/

/-- The assignment `a` with variable `x` overridden to `bb`. -/
def setVar (a : Nat → Bool) (x : Nat) (bb : Bool) : Nat → Bool :=
  fun v => if v = x then bb else a v

theorem litSat_setVar_of_ne {a : Nat → Bool} {x : Nat} {bb : Bool} {m : Int}
    (h : m.natAbs ≠ x) : litSat (setVar a x bb) m = litSat a m := by
  simp [litSat, setVar, h]

theorem natAbs_ne_of_not_mem {c : Clause} {x : Nat} {m : Int} (hm : m ∈ c)
    (h1 : (x : Int) ∉ c) (h2 : -(x : Int) ∉ c) : m.natAbs ≠ x := by
  intro hEq
  have hcast : m.natAbs = ((x : Int)).natAbs := by rw [hEq, Int.natAbs_ofNat]
  rcases eq_or_eq_neg_of_natAbs_eq hcast with rfl | rfl
  · exact h1 hm
  · exact h2 hm

theorem litSat_natCast {a : Nat → Bool} {x : Nat} (hx : 1 ≤ x) :
    litSat a (x : Int) = a x := by
  have h : (0 : Int) < x := by exact_mod_cast hx
  simp [litSat, h]

theorem litSat_neg_natCast {a : Nat → Bool} {x : Nat} (hx : 1 ≤ x) :
    litSat a (-(x : Int)) = !(a x) := by
  have h0 : (x : Int) ≠ 0 := by
    intro hc; exact_mod_cast absurd hc (by omega : ¬((x : Int) = 0))
  rw [litSat_neg h0, litSat_natCast hx]

/-- One Davis-Putnam elimination step preserves satisfiability, provided no
clause of the input contains complementary literals.  (Tester.py strips
both polarities of the eliminated variable from each parent clause, so on a
clause containing both `x` and `-x` the step is unsound; `noTaut` is the
hypothesis under which the step is the classical resolution rule.) -/
theorem satisfiable_dpStep_iff {fm : Formula} (h0 : noZero fm) (ht : noTaut fm)
    (h1 : fm ≠ []) (h2 : fm.any (fun c => c.isEmpty) = false) :
    Satisfiable (dpStep fm) ↔ Satisfiable fm := by
  have hx1 : 1 ≤ (fm.headI.headI).natAbs := by
    have hmem := headI_headI_mem_flatten h1 h2
    have := noZero_iff_flatten.1 h0 _ hmem
    omega
  set x := (fm.headI.headI).natAbs with hxdef
  constructor
  · -- a model of `rest + new` yields a model of `fm` by choosing `x`
    rintro ⟨a, ha⟩
    rw [formulaSat_iff] at ha
    by_cases hP : ∀ p ∈ fm, (x : Int) ∈ p →
        clauseSat a (p.filter (fun l => l.natAbs ≠ x)) = true
    · refine ⟨setVar a x false, formulaSat_iff.2 ?_⟩
      intro c hc
      by_cases hcx : (x : Int) ∈ c
      · obtain ⟨m, hm, hms⟩ := clauseSat_iff.1 (hP c hc hcx)
        rw [List.mem_filter] at hm
        have hne : m.natAbs ≠ x := by simpa using hm.2
        exact clauseSat_iff.2 ⟨m, hm.1, by rw [litSat_setVar_of_ne hne]; exact hms⟩
      · by_cases hcnx : -(x : Int) ∈ c
        · refine clauseSat_iff.2 ⟨-(x : Int), hcnx, ?_⟩
          rw [litSat_neg_natCast hx1]
          simp [setVar]
        · have hrest : c ∈ dpStep fm := mem_dpStep.2 (Or.inl ⟨hc, hcx, hcnx⟩)
          obtain ⟨m, hm, hms⟩ := clauseSat_iff.1 (ha c hrest)
          have hne : m.natAbs ≠ x := natAbs_ne_of_not_mem hm hcx hcnx
          exact clauseSat_iff.2 ⟨m, hm, by rw [litSat_setVar_of_ne hne]; exact hms⟩
    · push_neg at hP
      obtain ⟨p0, hp0, hp0x, hp0f⟩ := hP
      have hp0f' : clauseSat a (p0.filter (fun l => l.natAbs ≠ x)) = false :=
        Bool.not_eq_true _ ▸ hp0f
      refine ⟨setVar a x true, formulaSat_iff.2 ?_⟩
      intro c hc
      by_cases hcx : (x : Int) ∈ c
      · refine clauseSat_iff.2 ⟨(x : Int), hcx, ?_⟩
        rw [litSat_natCast hx1]
        simp [setVar]
      · by_cases hcnx : -(x : Int) ∈ c
        · have hrc : clauseSat a (resolventCore x p0 c) = true := by
            rcases htc : tautCheck (resolventCore x p0 c) with _ | _
            · have hmem : fromKeys [] (resolventCore x p0 c) ∈ dpStep fm :=
                mem_dpStep.2 (Or.inr ⟨p0, hp0, hp0x, c, hc, hcnx, htc, rfl⟩)
              obtain ⟨m, hm, hms⟩ := clauseSat_iff.1 (ha _ hmem)
              exact clauseSat_iff.2 ⟨m, (mem_fromKeys.1 hm).1, hms⟩
            · obtain ⟨l, hl, hnl⟩ := List.any_eq_true.1 htc
              simp only [decide_eq_true_eq] at hnl
              have hlz : l ≠ 0 := by
                have := (mem_resolventCore.1 hl).1
                rcases this with h | h
                · exact h0 p0 hp0 l h
                · exact h0 c hc l h
              exact clauseSat_of_taut hlz hl hnl
          obtain ⟨m, hm, hms⟩ := clauseSat_iff.1 hrc
          obtain ⟨hmpq, hmne⟩ := mem_resolventCore.1 hm
          rcases hmpq with hmp | hmc
          · exfalso
            have : clauseSat a (p0.filter (fun l => l.natAbs ≠ x)) = true :=
              clauseSat_iff.2 ⟨m, List.mem_filter.2 ⟨hmp, by simpa using hmne⟩, hms⟩
            rw [this] at hp0f'
            exact Bool.true_eq_false ▸ hp0f' ▸ rfl
          · exact clauseSat_iff.2 ⟨m, hmc, by rw [litSat_setVar_of_ne hmne]; exact hms⟩
        · have hrest : c ∈ dpStep fm := mem_dpStep.2 (Or.inl ⟨hc, hcx, hcnx⟩)
          obtain ⟨m, hm, hms⟩ := clauseSat_iff.1 (ha c hrest)
          have hne : m.natAbs ≠ x := natAbs_ne_of_not_mem hm hcx hcnx
          exact clauseSat_iff.2 ⟨m, hm, by rw [litSat_setVar_of_ne hne]; exact hms⟩
  · -- a model of `fm` satisfies `rest + new` directly
    rintro ⟨a, ha⟩
    rw [formulaSat_iff] at ha
    refine ⟨a, formulaSat_iff.2 ?_⟩
    intro c' hc'
    rcases mem_dpStep.1 hc' with ⟨hcf, _, _⟩ | ⟨p, hp, hpx, q, hq, hqx, _, rfl⟩
    · exact ha c' hcf
    · rcases hax : a x with _ | _
      · obtain ⟨lp, hlp, hlps⟩ := clauseSat_iff.1 (ha p hp)
        have hne : lp.natAbs ≠ x := by
          intro hEq
          have hcast : lp.natAbs = ((x : Int)).natAbs := by rw [hEq, Int.natAbs_ofNat]
          rcases eq_or_eq_neg_of_natAbs_eq hcast with rfl | rfl
          · rw [litSat_natCast hx1, hax] at hlps
            exact Bool.false_ne_true hlps
          · exact ht p hp _ hpx hlp
        refine clauseSat_iff.2 ⟨lp, mem_fromKeys.2 ⟨?_, by simp⟩, hlps⟩
        exact mem_resolventCore.2 ⟨Or.inl hlp, hne⟩
      · obtain ⟨lq, hlq, hlqs⟩ := clauseSat_iff.1 (ha q hq)
        have hne : lq.natAbs ≠ x := by
          intro hEq
          have hcast : lq.natAbs = ((x : Int)).natAbs := by rw [hEq, Int.natAbs_ofNat]
          rcases eq_or_eq_neg_of_natAbs_eq hcast with rfl | rfl
          · exact ht q hq _ hlq hqx
          · rw [litSat_neg_natCast hx1, hax] at hlqs
            exact Bool.false_ne_true hlqs
        refine clauseSat_iff.2 ⟨lq, mem_fromKeys.2 ⟨?_, by simp⟩, hlqs⟩
        exact mem_resolventCore.2 ⟨Or.inr hlq, hne⟩

/-- Partial correctness of the embedded `resolve`: whenever it returns a
verdict under the invariant, the verdict is `true` exactly on satisfiable
formulas (for tautology-free formulas with nonzero literals). -/
theorem resolveAux_correct {fuel : Nat} :
    ∀ {fm : Formula} {seen : Finset Sig} {b : Bool},
      noZero fm → noTaut fm → seenInv seen fm →
      resolveAux fuel fm seen = some b → (b = true ↔ Satisfiable fm) := by
  induction fuel with
  | zero =>
    intro fm seen b _ _ _ h
    simp [resolveAux] at h
  | succ fuel ih =>
    intro fm seen b h0 ht hs h
    rw [resolveAux_succ, if_neg (sig_not_mem_of_seenInv hs)] at h
    by_cases h1 : fm = []
    · rw [if_pos h1] at h
      have hb : b = true := (Option.some_inj.1 h).symm
      subst hb h1
      simp [satisfiable_nil]
    · rw [if_neg h1] at h
      rcases h2 : fm.any (fun c => c.isEmpty) with _ | _
      · rw [if_neg (by simp [h2])] at h
        have key := ih (noZero_dpStep h0) (noTaut_dpStep ht) (seenInv_step hs h1 h2) h
        rw [key, satisfiable_dpStep_iff h0 ht h1 h2]
      · rw [if_pos (by simp [h2])] at h
        have hb : b = false := (Option.some_inj.1 h).symm
        subst hb
        obtain ⟨c, hc, hce⟩ := List.any_eq_true.1 h2
        have hcf : [] ∈ fm := by rwa [List.isEmpty_iff.1 hce] at hc
        simp [not_satisfiable_of_empty_clause hcf]

/-- Partial correctness of the embedded `dp_solver` on tautology-free
formulas with nonzero literals. -/
theorem dp_solver_correct {f : Formula} {b : Bool} (h0 : noZero f) (ht : noTaut f)
    (h : dp_solver f = some b) : b = true ↔ Satisfiable f :=
  resolveAux_correct h0 ht seenInv_empty h

/-! ## The claims -/

/-- C1 (counterexample): on `F = [[1, -1]]` (one clause containing a
literal and its negation) the brute-force and DPLL engines report SAT while
the Davis-Putnam engine reports UNSAT, because its resolvent construction
strips both polarities of the eliminated variable from each parent clause
and so resolves the tautological clause with itself into the empty clause.
All three engines return a verdict here, refuting the claimed agreement. -/
theorem claim_C1_counterexample :
    brute_force_solver [[1, -1]] = some true ∧
      dpll_solver [[1, -1]] = true ∧
      dp_solver [[1, -1]] = some false := by
  refine ⟨by decide, ?_, ?_⟩
  · have h1 : unitProp [[1, -1]] = [[1, -1]] := by
      rw [unitProp]; simp [unitLit]
    have h2 : purePass [[1, -1]] = [[1, -1]] := by decide
    have h3 : dpll_solver [] = true := by
      rw [dpll_solver]; simp [unitProp, purePass]
    rw [dpll_solver, h1, h2]
    simp only [List.headI]
    rw [show simplify [[1, -1]] 1 = [] by decide]
    simp [h3]
  · rw [dp_solver, MAX_DP_STEPS, show (100000 : Nat) = 99999 + 1 from rfl, resolveAux_succ]
    rw [if_neg (by decide), if_neg (by decide), if_neg (by decide)]
    rw [show dpStep [[1, -1]] = [[]] by decide]
    rw [show (99999 : Nat) = 99998 + 1 from rfl, resolveAux_succ]
    rw [if_neg (by decide)]
    simp

/-- C1 (amended): for every formula with nonzero literals, no clause
containing complementary literals, and variable count at most
`BF_THRESHOLD`, the three native engines agree on the verdict whenever the
brute-force and Davis-Putnam engines return one rather than aborting on a
resource budget (the DPLL engine always returns a verdict). -/
theorem claim_C1_amended_agreement {f : Formula} {b1 b2 : Bool}
    (h0 : noZero f) (ht : noTaut f)
    (h20 : ∀ l ∈ f.flatten, l.natAbs ≤ BF_THRESHOLD)
    (hbf : brute_force_solver f = some b1)
    (hdp : dp_solver f = some b2) :
    b1 = b2 ∧ b1 = dpll_solver f := by
  have e1 := brute_force_solver_correct h0 hbf
  have e2 := dp_solver_correct h0 ht hdp
  have e3 := dpll_solver_correct h0
  by_cases hS : Satisfiable f
  · rw [e1.2 hS, e2.2 hS, e3.2 hS]
    exact ⟨rfl, rfl⟩
  · have hb1 : b1 = false := by
      cases b1 with
      | false => rfl
      | true => exact absurd (e1.1 rfl) hS
    have hb2 : b2 = false := by
      cases b2 with
      | false => rfl
      | true => exact absurd (e2.1 rfl) hS
    have hd : dpll_solver f = false := by
      rcases hdd : dpll_solver f with _ | _
      · rfl
      · exact absurd (e3.1 hdd) hS
    rw [hb1, hb2, hd]
    exact ⟨rfl, rfl⟩

/-- Witness for C1 (amended) at the concrete formula `[[1]]`. -/
theorem claim_C1_witness :
    noZero [[1]] ∧ noTaut [[1]] ∧
      (∀ l ∈ ([[1]] : Formula).flatten, l.natAbs ≤ BF_THRESHOLD) ∧
      brute_force_solver [[1]] = some true ∧ dp_solver [[1]] = some true ∧
      (true = true ∧ true = dpll_solver [[1]]) := by
  have hdp : dp_solver [[1]] = some true := by
    rw [dp_solver, MAX_DP_STEPS, show (100000 : Nat) = 99999 + 1 from rfl, resolveAux_succ]
    rw [if_neg (by decide), if_neg (by decide), if_neg (by decide)]
    rw [show dpStep [[1]] = [] by decide]
    rw [show (99999 : Nat) = 99998 + 1 from rfl, resolveAux_succ]
    rw [if_neg (by decide)]
    simp
  exact ⟨by unfold noZero; decide, by unfold noTaut; decide, by decide, by decide, hdp,
    claim_C1_amended_agreement (by unfold noZero; decide) (by unfold noTaut; decide)
      (by decide) (by decide) hdp⟩

/-- C2 (code evaluated at the failing input): on the empty formula the
Davis-Putnam and DPLL engines return SAT as claimed, but the brute-force
engine raises (`max()` of an empty sequence of literal magnitudes),
modelled as `none`, instead of returning SAT. -/
theorem claim_C2_empty_formula_behavior :
    brute_force_solver [] = none ∧ dp_solver [] = some true ∧
      dpll_solver [] = true := by
  refine ⟨by decide, ?_, ?_⟩
  · rw [dp_solver, MAX_DP_STEPS, show (100000 : Nat) = 99999 + 1 from rfl, resolveAux_succ]
    simp
  · rw [dpll_solver]
    simp [unitProp, purePass]

/-- The per-clause action described by the specification of
`simplify(formula, literal)`: drop a clause containing the literal, remove
the negated literal from a clause containing it, keep other clauses
unchanged. -/
def simplifyClauseSpec (lit : Int) (c : Clause) : Option Clause :=
  if lit ∈ c then none
  else if -lit ∈ c then some (c.filter (fun l => l ≠ -lit))
  else some c

/-- C4: `simplify` maps each clause as the specification describes —
clauses containing the literal are dropped, clauses containing its negation
lose exactly that literal, all others are kept unchanged — and the relative
order of the kept clauses is preserved (`filterMap` of the per-clause
action). -/
theorem claim_C4_simplify_clause_map (f : Formula) (lit : Int) :
    simplify f lit = f.filterMap (simplifyClauseSpec lit) := by
  induction f with
  | nil => rfl
  | cons c f ih =>
    by_cases h1 : lit ∈ c
    · simp [simplify, simplifyClauseSpec, h1, ih]
    · by_cases h2 : -lit ∈ c
      · simp [simplify, simplifyClauseSpec, h1, h2, ih]
      · simp [simplify, simplifyClauseSpec, h1, h2, ih]

/-- C5: each call of `dpll_solver` is exactly: (1) unit propagation to a
fixpoint (after which no unit clause remains), then (2) the single
pure-literal pass, then (3) the termination checks (empty formula SAT,
empty clause UNSAT), then (4) branching on the first literal of the first
clause with short-circuiting `or`, the negated branch only being evaluated
when the positive branch fails. -/
theorem claim_C5_dpll_structure (f : Formula) :
    (dpll_solver f =
      if purePass (unitProp f) = [] then true
      else if (purePass (unitProp f)).any (fun c => c.isEmpty) then false
      else
        dpll_solver (simplify (purePass (unitProp f)) (purePass (unitProp f)).headI.headI)
          || dpll_solver (simplify (purePass (unitProp f))
              (-(purePass (unitProp f)).headI.headI)))
    ∧ (unitProp f).filterMap unitLit = [] := by
  constructor
  · rw [dpll_solver]
    by_cases h1 : purePass (unitProp f) = []
    · rw [dif_pos h1, if_pos h1]
    · rw [dif_neg h1, if_neg h1]
      by_cases h2 : (purePass (unitProp f)).any (fun c => c.isEmpty) = true
      · rw [dif_pos h2, if_pos h2]
      · rw [dif_neg h2, if_neg h2]
  · exact unitProp_no_units

/-- C6: on a non-empty formula with no empty clause whose signature has not
been visited, one recursive step of `resolve` eliminates exactly the
variable `x` of the first literal of the first clause and recurses on the
clauses containing neither `x` nor `-x` followed by the retained
resolvents: for every pair `(p, q)` of a clause containing `x` and a clause
containing `-x`, the concatenation of their literals with the variable `x`
excluded, deduplicated in first-seen order, kept unless it contains a
literal together with its negation. -/
theorem claim_C6_dp_step (fuel : Nat) (fm : Formula) (seen : Finset Sig)
    (h1 : fm ≠ []) (h2 : ∀ c ∈ fm, c ≠ []) (h3 : sigOf fm ∉ seen) :
    resolveAux (fuel + 1) fm seen =
      resolveAux fuel
        ((fm.filter (fun c => !(decide (((fm.headI.headI).natAbs : Int) ∈ c)) &&
            !(decide (-((fm.headI.headI).natAbs : Int) ∈ c))))
          ++ (fm.filter (fun c => decide (((fm.headI.headI).natAbs : Int) ∈ c))).flatMap
              (fun p =>
                (fm.filter
                    (fun c => decide (-((fm.headI.headI).natAbs : Int) ∈ c))).filterMap
                  (fun q =>
                    if tautCheck (resolventCore (fm.headI.headI).natAbs p q) then none
                    else some (fromKeys [] (resolventCore (fm.headI.headI).natAbs p q)))))
        (insert (sigOf fm) seen) := by
  rw [resolveAux_succ, if_neg h3, if_neg h1,
    if_neg (by simp [any_isEmpty_eq_false.2 h2])]
  rfl

/-- Witness for C6 at the concrete formula `[[1, 2], [-1, 3]]`. -/
theorem claim_C6_witness :
    (([[1, 2], [-1, 3]] : Formula) ≠ [] ∧
      (∀ c ∈ ([[1, 2], [-1, 3]] : Formula), c ≠ []) ∧
      sigOf [[1, 2], [-1, 3]] ∉ (∅ : Finset Sig)) ∧
    resolveAux 2 [[1, 2], [-1, 3]] ∅ =
      resolveAux 1 (dpStep [[1, 2], [-1, 3]]) (insert (sigOf [[1, 2], [-1, 3]]) ∅) := by
  refine ⟨⟨by decide, by decide, by decide⟩, ?_⟩
  have := claim_C6_dp_step 1 [[1, 2], [-1, 3]] ∅ (by decide) (by decide) (by decide)
  exact this

/-- C7: in every execution of the Davis-Putnam recursion started with an
empty visited-signature set, the cycle-guard branch (returning UNSAT on a
previously seen canonical signature) is never taken: the eliminated
variable vanishes from `rest` and from every retained resolvent, so the
signatures along the recursion are pairwise distinct.  `guardHit` mirrors
the branch structure of `resolveAux` and reports whether any call takes the
guard branch. -/
theorem claim_C7_guard_never_taken :
    ∀ (fuel : Nat) (fm : Formula), guardHit fuel fm ∅ = false :=
  fun _ _ => guardHit_eq_false seenInv_empty

/-- C8 (counterexample): the formula `[[]]` (one empty clause) is non-empty
and no mask satisfies it, so the claim requires the verdict UNSAT; but
`brute_force_solver` raises (`max()` over no literals), modelled as `none`,
returning no verdict at all. -/
theorem claim_C8_counterexample :
    brute_force_solver [([] : Clause)] = none ∧
      brute_force_solver [([] : Clause)] ≠ some false ∧
      (List.range (2 ^ maxVar [([] : Clause)])).any
        (fun mask => ([([] : Clause)] : Formula).all (fun c => c.any (maskEval mask)))
        = false := by
  refine ⟨by decide, by decide, by decide⟩

/-- C8 (amended): for every formula that contains at least one literal and
whose literals are nonzero (the parser guarantees both whenever any clause
is nonempty), the brute-force engine returns SAT iff some mask in
`0 .. 2^n - 1` (with `n = max |l|`) makes at least one literal of every
clause true under the bit semantics, and UNSAT iff no mask does. -/
theorem claim_C8_amended_bf_masks {f : Formula} (h0 : noZero f)
    (hne : f.flatten ≠ []) :
    (brute_force_solver f = some true ↔
      ∃ mask ∈ List.range (2 ^ maxVar f),
        f.all (fun c => c.any (maskEval mask)) = true) ∧
    (brute_force_solver f = some false ↔
      ∀ mask ∈ List.range (2 ^ maxVar f),
        f.all (fun c => c.any (maskEval mask)) = false) := by
  unfold brute_force_solver
  rw [if_neg hne]
  constructor
  · rw [Option.some_inj]
    exact List.any_eq_true
  · rw [Option.some_inj]
    rw [List.any_eq_false]
    constructor
    · intro h mask hmask
      exact Bool.not_eq_true _ ▸ h mask hmask
    · intro h mask hmask
      rw [h mask hmask]
      simp

/-- Witness for C8 (amended) at the concrete formula `[[1]]`. -/
theorem claim_C8_witness :
    noZero [[1]] ∧ ([[1]] : Formula).flatten ≠ [] ∧
      ((brute_force_solver [[1]] = some true ↔
        ∃ mask ∈ List.range (2 ^ maxVar [[1]]),
          ([[1]] : Formula).all (fun c => c.any (maskEval mask)) = true) ∧
      (brute_force_solver [[1]] = some false ↔
        ∀ mask ∈ List.range (2 ^ maxVar [[1]]),
          ([[1]] : Formula).all (fun c => c.any (maskEval mask)) = false)) :=
  ⟨by unfold noZero; decide, by decide,
    claim_C8_amended_bf_masks (by unfold noZero; decide) (by decide)⟩

/-- C9: re-simplifying by the same literal is a no-op — for any formula and
any literal occurring in it (the hypothesis of the claim; it is not in fact
needed), `simplify (simplify F l) l = simplify F l`, since one application
already removes every occurrence of `l` and `-l`. -/
theorem claim_C9_simplify_idempotent {f : Formula} {lit : Int}
    (h : ∃ c ∈ f, lit ∈ c) :
    simplify (simplify f lit) lit = simplify f lit :=
  simplify_of_not_mem simplify_eliminates

/-- Witness for C9 at the concrete formula `[[1, 2]]` and literal `1`. -/
theorem claim_C9_witness :
    (∃ c ∈ ([[1, 2]] : Formula), (1 : Int) ∈ c) ∧
      simplify (simplify [[1, 2]] 1) 1 = simplify [[1, 2]] 1 :=
  ⟨by decide, claim_C9_simplify_idempotent (by decide)⟩

/-- C10: one `simplify` eliminates the literal's variable completely — no
clause of the result contains the literal or its negation — and therefore
every simplification by a literal whose variable occurs strictly shrinks
the set of occurring variables.  In particular both branches of
`dpll_solver`'s branching step do (the branch literal occurs in the
formula, and negation preserves the variable, so this also covers the
negated branch `simplify _ (-lit)` when `-lit` itself does not occur), and
so does each round of the unit-propagation loop (simplifying by the batch
of current unit-clause literals). -/
theorem claim_C10_variable_elimination :
    (∀ (f : Formula) (lit : Int), ∀ c ∈ simplify f lit, lit ∉ c ∧ -lit ∉ c) ∧
    (∀ (f : Formula) (lit : Int), lit.natAbs ∈ varsOf f →
      varsOf (simplify f lit) ⊂ varsOf f) ∧
    (∀ f : Formula, purePass (unitProp f) ≠ [] →
      (purePass (unitProp f)).any (fun c => c.isEmpty) = false →
      varsOf (simplify (purePass (unitProp f)) (purePass (unitProp f)).headI.headI)
          ⊂ varsOf (purePass (unitProp f)) ∧
        varsOf (simplify (purePass (unitProp f)) (-(purePass (unitProp f)).headI.headI))
          ⊂ varsOf (purePass (unitProp f))) ∧
    (∀ (f : Formula) (u : Int) (us : List Int), f.filterMap unitLit = u :: us →
      varsOf ((u :: us).foldl simplify f) ⊂ varsOf f) := by
  refine ⟨fun f lit => simplify_eliminates, ?_, ?_, ?_⟩
  · intro f lit hmem
    exact varsOf_simplify_ssubset hmem
  · intro f h1 h2
    have hmem := headI_headI_mem_flatten h1 h2
    have hv : ((purePass (unitProp f)).headI.headI).natAbs ∈ varsOf (purePass (unitProp f)) :=
      mem_varsOf.2 ⟨_, hmem, rfl⟩
    constructor
    · exact varsOf_simplify_ssubset hv
    · exact varsOf_simplify_ssubset (by rw [Int.natAbs_neg]; exact hv)
  · intro f u us hu
    constructor
    · intro v hv
      exact varsOf_foldl_simplify_subset v hv
    · intro hsub
      have humem : u ∈ f.flatten := unit_lit_mem_flatten (hu ▸ List.mem_cons_self u us)
      have h1 : u.natAbs ∈ varsOf f := mem_varsOf.2 ⟨u, humem, rfl⟩
      have h2 := hsub h1
      rw [List.foldl_cons] at h2
      have h3 := varsOf_foldl_simplify_subset _ h2
      exact (varsOf_simplify_subset _ h3).2 rfl

/-- Witness for C10 at concrete formulas; `[[1, -2], [-1, 2]]` has no unit
clause and no pure variable, so it survives both preliminary passes and
reaches the branching step. -/
theorem claim_C10_witness :
    (([2] : Clause) ∈ simplify [[2]] 1 ∧
      ((1 : Int) ∉ ([2] : Clause) ∧ -(1 : Int) ∉ ([2] : Clause))) ∧
    ((1 : Int).natAbs ∈ varsOf [[1]] ∧
      varsOf (simplify [[1]] 1) ⊂ varsOf [[1]]) ∧
    (purePass (unitProp [[1, -2], [-1, 2]]) ≠ [] ∧
      (purePass (unitProp [[1, -2], [-1, 2]])).any (fun c => c.isEmpty) = false ∧
      (varsOf (simplify (purePass (unitProp [[1, -2], [-1, 2]]))
            (purePass (unitProp [[1, -2], [-1, 2]])).headI.headI)
          ⊂ varsOf (purePass (unitProp [[1, -2], [-1, 2]])) ∧
        varsOf (simplify (purePass (unitProp [[1, -2], [-1, 2]]))
            (-(purePass (unitProp [[1, -2], [-1, 2]])).headI.headI))
          ⊂ varsOf (purePass (unitProp [[1, -2], [-1, 2]])))) ∧
    (([[1]] : Formula).filterMap unitLit = [1] ∧
      varsOf (([1] : List Int).foldl simplify [[1]]) ⊂ varsOf [[1]]) := by
  have hup : unitProp [[1, -2], [-1, 2]] = [[1, -2], [-1, 2]] := by
    rw [unitProp]; simp [unitLit]
  have h1 : purePass (unitProp [[1, -2], [-1, 2]]) ≠ [] := by
    rw [hup]; decide
  have h2 : (purePass (unitProp [[1, -2], [-1, 2]])).any (fun c => c.isEmpty) = false := by
    rw [hup]; decide
  exact ⟨⟨by decide, claim_C10_variable_elimination.1 [[2]] 1 [2] (by decide)⟩,
    ⟨by decide, claim_C10_variable_elimination.2.1 [[1]] 1 (by decide)⟩,
    ⟨h1, h2, claim_C10_variable_elimination.2.2.1 [[1, -2], [-1, 2]] h1 h2⟩,
    ⟨by decide, claim_C10_variable_elimination.2.2.2 [[1]] 1 [] (by decide)⟩⟩
